/-
Verification of the "highlight related" engine
(crates/ide/src/highlight_related.rs) against its specification.

The development shallowly embeds the data model and the analyzer
functions of the source file.  Helper algorithms that live in sibling
crates (`pick_best_token`, `walk_expr`, `for_each_tail_expr`,
`for_each_break_and_continue_expr`) are modelled from the spec, as
marked in their doc comments.
-/
import Mathlib

set_option autoImplicit false

/-! ## Basic data model -/

/-- A text range `[start, stop]` in the queried file, mirroring `TextRange`. -/
structure TextRange where
  start : Nat
  stop : Nat
deriving DecidableEq, Repr

/-- `TextRange::cover`: the smallest range containing both. -/
def TextRange.cover (a b : TextRange) : TextRange :=
  ⟨min a.start b.start, max a.stop b.stop⟩

/-- `ReferenceCategory` from `ide_db::search`. -/
inductive ReferenceCategory where
  | Read
  | Write
  | Import
deriving DecidableEq, Repr

/-- `HighlightedRange { range, category }` from the source. -/
structure HighlightedRange where
  range : TextRange
  category : Option ReferenceCategory
deriving DecidableEq, Repr

/-- `HighlightRelatedConfig`: the five independent feature toggles. -/
structure HighlightRelatedConfig where
  references : Bool
  exit_points : Bool
  break_points : Bool
  closure_captures : Bool
  yield_points : Bool
deriving DecidableEq, Repr

/-- The token kinds the dispatcher distinguishes (`SyntaxKind`).
`otherKind` stands for every other punctuation/trivia kind. -/
inductive SynKind where
  | question
  | thinArrow
  | pipe
  | identTok
  | intNumber
  | kwFn
  | kwReturn
  | kwAwait
  | kwAsync
  | kwFor
  | kwBreak
  | kwLoop
  | kwWhile
  | kwContinue
  | kwMove
  | otherKind
deriving DecidableEq, Repr

/-- `SyntaxKind::is_keyword`: true exactly on the keyword kinds. -/
def SynKind.is_keyword : SynKind → Bool
  | .kwFn | .kwReturn | .kwAwait | .kwAsync | .kwFor | .kwBreak | .kwLoop
  | .kwWhile | .kwContinue | .kwMove => true
  | _ => false

/-- `cover_range` from the source: union of two optional ranges. -/
def cover_range (r0 r1 : Option TextRange) : Option TextRange :=
  match r0, r1 with
  | some r0, some r1 => some (r0.cover r1)
  | some range, none => some range
  | none, some range => some range
  | none, none => none

/-! ## Dispatcher token selection -/

/-- The priority closure passed to `pick_best_token` in `highlight_related`
(source lines 61–68):
`?` ↦ 4, `->` ↦ 4, keywords ↦ 3, IDENT | INT_NUMBER ↦ 2, `|` ↦ 1, else 0. -/
def tokenPriority (kind : SynKind) : Nat :=
  match kind with
  | .question => 4
  | .thinArrow => 4
  | kind =>
    if kind.is_keyword then 3
    else
      match kind with
      | .identTok => 2
      | .intNumber => 2
      | .pipe => 1
      | _ => 0

/-- A leaf token: kind plus text range. -/
structure Token where
  kind : SynKind
  range : TextRange
deriving DecidableEq, Repr

/-- Whether a token's range contains the offset (boundary inclusive, so two
tokens can both contain a boundary offset). -/
def Token.containsOffset (t : Token) (offset : Nat) : Bool :=
  t.range.start ≤ offset && offset ≤ t.range.stop

/-- Modelled from the spec: `pick_best_token` (from `ide_db::helpers`, not in
this crate's sources) selects among the candidate tokens one with the
highest priority. -/
def pick_best_token (tokens : List Token) : Option Token :=
  tokens.foldl
    (fun best t =>
      match best with
      | none => some t
      | some b => if tokenPriority b.kind < tokenPriority t.kind then some t else some b)
    none

/-- The token-selection step of `highlight_related`: restrict the token
stream to the tokens containing the offset, then pick the best one. -/
def bestTokenAt (tokens : List Token) (offset : Nat) : Option Token :=
  pick_best_token (tokens.filter (fun t => t.containsOffset offset))

/-! ## Dispatcher routing

`highlight_related` (source lines 70–86) routes the picked token to one
analyzer.  The analyzers need the external semantic resolver, so their
results are passed in as inputs here; routing itself is fully embedded,
including the fall-through of a failed match guard to the references arm. -/

/-- The facts about the picked token that the routing guards consult. -/
structure TokenCtx where
  kind : SynKind
  parentIsTry : Bool
  parentIsFor : Bool
deriving DecidableEq, Repr

/-- The value each analyzer would return for this request. -/
structure AnalyzerResults where
  exitPoints : Option (List HighlightedRange)
  yieldPoints : Option (List HighlightedRange)
  breakPoints : Option (List HighlightedRange)
  closureCaptures : Option (List HighlightedRange)
  references : Option (List HighlightedRange)

/-- The dispatch `match` of `highlight_related`: a guard that fails falls
through to the `_ if config.references` arm, then to `None`. -/
def highlight_related (config : HighlightRelatedConfig) (tok : TokenCtx)
    (r : AnalyzerResults) : Option (List HighlightedRange) :=
  let fallback := if config.references then r.references else none
  match tok.kind with
  | .question => if config.exit_points && tok.parentIsTry then r.exitPoints else fallback
  | .kwFn => if config.exit_points then r.exitPoints else fallback
  | .kwReturn => if config.exit_points then r.exitPoints else fallback
  | .thinArrow => if config.exit_points then r.exitPoints else fallback
  | .kwAwait => if config.yield_points then r.yieldPoints else fallback
  | .kwAsync => if config.yield_points then r.yieldPoints else fallback
  | .kwFor => if config.break_points && tok.parentIsFor then r.breakPoints else fallback
  | .kwBreak => if config.break_points then r.breakPoints else fallback
  | .kwLoop => if config.break_points then r.breakPoints else fallback
  | .kwWhile => if config.break_points then r.breakPoints else fallback
  | .kwContinue => if config.break_points then r.breakPoints else fallback
  | .pipe => if config.closure_captures then r.closureCaptures else fallback
  | .kwMove => if config.closure_captures then r.closureCaptures else fallback
  | _ => fallback

/-! ## Reference analyzer -/

/-- A `NavigationTarget` as the reference analyzer consumes it:
the file it lives in and its optional focus range. -/
structure NavTarget where
  file_id : Nat
  focus_range : Option TextRange
deriving DecidableEq, Repr

/-- The `Definition::Local` arm of `highlight_references` (source lines
212–225): each declaration site of the local in the current file is
emitted with category `Write` exactly when the local is mutable. -/
def localDeclHighlights (is_mut : Bool) (decls : List NavTarget) (file_id : Nat) :
    List HighlightedRange :=
  ((decls.filter (fun d => d.file_id == file_id)).filterMap (fun d => d.focus_range)).map
    (fun range =>
      { range, category := if is_mut then some ReferenceCategory.Write else none })

/-- The final step of `highlight_references` (source lines 254–258):
an empty accumulated result set is normalized to `None`. -/
def highlight_references_result (res : List HighlightedRange) :
    Option (List HighlightedRange) :=
  if res.isEmpty then none else some res

/-! ## Break/continue analyzer -/

/-- The data of one collected `break`/`continue` expression: an occurrence
id (standing for its tree position), whether it is a `break`, its label
text, its keyword-token range and its label range. -/
structure BCItem where
  id : Nat
  isBreak : Bool
  label : Option String
  tok : Option TextRange
  lblRange : Option TextRange
deriving DecidableEq, Repr

mutual
/-- An expression inside a loop/labeled-block body, as the break/continue
enumeration sees it: `break`/`continue` leaves, nested loops (`loop`,
`for`, `while`), nested labeled blocks, and every other expression
(which merely passes the walk through to its children). -/
inductive BCExpr where
  | breakE (id : Nat) (label : Option String) (tok lblRange : Option TextRange)
  | continueE (id : Nat) (label : Option String) (tok lblRange : Option TextRange)
  | nestedLoop (label : Option String) (body : BCForest)
  | nestedBlock (label : String) (body : BCForest)
  | otherB (body : BCForest)
/-- A list of sibling `BCExpr`s. -/
inductive BCForest where
  | nil
  | cons (e : BCExpr) (es : BCForest)
end

/-- Label equality by literal text, both sides labeled. -/
def labelEq : Option String → Option String → Bool
  | some a, some b => a == b
  | _, _ => false

/-- Modelled from the spec: whether the break/continue enumeration keeps an
occurrence with label `l` — unlabeled occurrences only at top level
(`top`, i.e. not inside a nested loop/labeled block), labeled occurrences
whenever the label equals the target label. -/
def bcKeep (target : Option String) (top : Bool) (l : Option String) : Bool :=
  (top && l.isNone) || labelEq target l

mutual
/-- Modelled from the spec: `for_each_break_and_continue_expr` (from
`ide_db::syntax_helpers::node_ext`, not in this crate's sources) —
the scoped walk that recurses into nested expressions but, at a nested
loop or labeled block, keeps only labeled occurrences whose label equals
the outer target label. -/
def forEachBC (target : Option String) (top : Bool) : BCExpr → List BCItem
  | .breakE id l tok lr => if bcKeep target top l then [⟨id, true, l, tok, lr⟩] else []
  | .continueE id l tok lr => if bcKeep target top l then [⟨id, false, l, tok, lr⟩] else []
  | .nestedLoop _ body => forEachBCForest target false body
  | .nestedBlock _ body => forEachBCForest target false body
  | .otherB body => forEachBCForest target top body
/-- Forest version of `forEachBC`. -/
def forEachBCForest (target : Option String) (top : Bool) : BCForest → List BCItem
  | .nil => []
  | .cons e es => forEachBC target top e ++ forEachBCForest target top es
end

mutual
/-- All break/continue occurrences of an expression, each paired with the
flag "occurs inside a nested loop or labeled block" (given the flag
`nested` of the surrounding position). -/
def bcOccs (nested : Bool) : BCExpr → List (BCItem × Bool)
  | .breakE id l tok lr => [(⟨id, true, l, tok, lr⟩, nested)]
  | .continueE id l tok lr => [(⟨id, false, l, tok, lr⟩, nested)]
  | .nestedLoop _ body => bcOccsForest true body
  | .nestedBlock _ body => bcOccsForest true body
  | .otherB body => bcOccsForest nested body
/-- Forest version of `bcOccs`. -/
def bcOccsForest (nested : Bool) : BCForest → List (BCItem × Bool)
  | .nil => []
  | .cons e es => bcOccs nested e ++ bcOccsForest nested es
end

/-- The per-expression arm of `highlight_break_points::hl` (source lines
358–374): the cursor-kind filter.  A `break` expression is covered for a
cursor on `for`/`while`/`loop`/`break`; a `continue` expression for a
cursor on `for`/`while`/`loop`/`continue`; anything else yields no range. -/
def bcHighlightRange (cursorKind : SynKind) (it : BCItem) : Option TextRange :=
  match cursorKind, it.isBreak with
  | .kwFor, true | .kwWhile, true | .kwLoop, true | .kwBreak, true =>
      cover_range it.tok it.lblRange
  | .kwFor, false | .kwWhile, false | .kwLoop, false | .kwContinue, false =>
      cover_range it.tok it.lblRange
  | _, _ => none

/-- `highlight_break_points::hl` (source lines 346–377): anchor covering
the introducing token plus label, then the filtered collected
`break`/`continue` highlights. -/
def break_hl (cursorKind : SynKind) (tok lblRange : Option TextRange)
    (targetLabel : Option String) (body : Option BCForest) :
    Option (List HighlightedRange) :=
  let anchor := (cover_range tok lblRange).toList.map
    (fun range => HighlightedRange.mk range none)
  let items := match body with
    | none => []
    | some f => forEachBCForest targetLabel true f
  some (anchor ++ items.filterMap
    (fun it => (bcHighlightRange cursorKind it).map
      (fun range => HighlightedRange.mk range none)))

/-- An ancestor expression as the break-target search of
`highlight_break_points` (source lines 399–424) classifies it.  The label
is the label's lifetime text, when the construct is labeled. -/
inductive AncExpr where
  | loopA (label : Option String)
  | forA (label : Option String)
  | whileA (label : Option String)
  | blockA (label : Option String)
  | otherA
deriving DecidableEq, Repr

/-- `label_matches` from `highlight_break_points` (source lines 392–397):
a labeled cursor matches by literal text; an unlabeled cursor matches
anything. -/
def label_matches (lbl : Option String) (defLbl : Option String) : Bool :=
  match lbl with
  | some l => defLbl == some l
  | none => true

/-- The guard of each arm of the ancestor loop of `highlight_break_points`:
loops match by label; a plain block qualifies only when it carries a
label that matches. -/
def breakTargetQualifies (lbl : Option String) : AncExpr → Bool
  | .loopA l => label_matches lbl l
  | .forA l => label_matches lbl l
  | .whileA l => label_matches lbl l
  | .blockA l => l.isSome && label_matches lbl l
  | .otherA => false

/-- The ancestor loop of `highlight_break_points`: the first qualifying
ancestor wins; non-qualifying ancestors are skipped via `continue`. -/
def findBreakTarget (lbl : Option String) : List AncExpr → Option AncExpr
  | [] => none
  | a :: rest => if breakTargetQualifies lbl a then some a else findBreakTarget lbl rest

/-! ## Exit-point analyzer -/

mutual
/-- An expression inside an exit-scope body, as `highlight_exit_points::hl`
sees it: `return`, `?`, call-like expressions (call / method call /
macro invocation) with their never-type flag, `break`, control constructs
that forward their value (`if`, `match`, blocks), and everything else.
`blockR` is a block with a trailing expression, `blockNT` one without.
Each node carries its full text range. -/
inductive RExpr where
  | retE (tok : Option TextRange) (range : TextRange) (inner : RForest)
  | tryE (tok : Option TextRange) (range : TextRange) (inner : RForest)
  | callE (isNever : Bool) (range : TextRange) (inner : RForest)
  | breakR (tok : Option TextRange) (range : TextRange) (inner : RForest)
  | ifR (range : TextRange) (branches : RForest) (rest : RForest)
  | matchR (range : TextRange) (arms : RForest) (rest : RForest)
  | blockR (range : TextRange) (stmts : RForest) (tail : RExpr)
  | blockNT (range : TextRange) (stmts : RForest)
  | otherR (range : TextRange) (inner : RForest)
/-- A list of sibling `RExpr`s. -/
inductive RForest where
  | nil
  | cons (e : RExpr) (es : RForest)
end

/-- The text range of an `RExpr` (its `syntax().text_range()`). -/
def RExpr.range : RExpr → TextRange
  | .retE _ r _ => r
  | .tryE _ r _ => r
  | .callE _ r _ => r
  | .breakR _ r _ => r
  | .ifR r _ _ => r
  | .matchR r _ _ => r
  | .blockR r _ _ => r
  | .blockNT r _ => r
  | .otherR r _ => r

mutual
/-- The walk pass of `highlight_exit_points::hl` (source lines 278–298):
`walk_expr` over the body (modelled from the spec, living in
`ide_db::syntax_helpers::node_ext`), pushing the `return` keyword, the `?`
token, and the whole range of a call-like expression of never type. -/
def exitWalkHl : RExpr → List HighlightedRange
  | .retE tok _ inner =>
      (tok.map (fun r => HighlightedRange.mk r none)).toList ++ exitWalkHlForest inner
  | .tryE tok _ inner =>
      (tok.map (fun r => HighlightedRange.mk r none)).toList ++ exitWalkHlForest inner
  | .callE isNever r inner =>
      (if isNever then [HighlightedRange.mk r none] else []) ++ exitWalkHlForest inner
  | .breakR _ _ inner => exitWalkHlForest inner
  | .ifR _ branches rest => exitWalkHlForest branches ++ exitWalkHlForest rest
  | .matchR _ arms rest => exitWalkHlForest arms ++ exitWalkHlForest rest
  | .blockR _ stmts tail => exitWalkHlForest stmts ++ exitWalkHl tail
  | .blockNT _ stmts => exitWalkHlForest stmts
  | .otherR _ inner => exitWalkHlForest inner
/-- Forest version of `exitWalkHl`. -/
def exitWalkHlForest : RForest → List HighlightedRange
  | .nil => []
  | .cons e es => exitWalkHl e ++ exitWalkHlForest es
end

mutual
/-- Modelled from the spec: `for_each_tail_expr` (from
`ide_db::syntax_helpers::node_ext`, not in this crate's sources) — the
tail-expression enumeration: recurse into the branches of `if`, the arms
of `match`, and the trailing expression of a block; every other
expression (including `break`) is itself a tail item. -/
def tailExprs : RExpr → List RExpr
  | .ifR _ branches _ => tailExprsForest branches
  | .matchR _ arms _ => tailExprsForest arms
  | .blockR _ _ tail => tailExprs tail
  | .blockNT _ _ => []
  | e => [e]
/-- Forest version of `tailExprs`. -/
def tailExprsForest : RForest → List RExpr
  | .nil => []
  | .cons e es => tailExprs e ++ tailExprsForest es
end

/-- The tail-highlight range selection of `highlight_exit_points::hl`
(source lines 305–313): a `break` expression in tail position is
highlighted at its `break` keyword token (falling back to the whole
expression when the token is absent); every other tail expression at its
whole range. -/
def exitTailRange : RExpr → TextRange
  | .breakR tok r _ => tok.getD r
  | e => e.range

/-- The `let tail = match body { BlockExpr(b) => b.tail_expr(), e => Some(e) }`
step of `highlight_exit_points::hl` (source lines 299–314), composed with
the tail enumeration. -/
def bodyTailExprs : RExpr → List RExpr
  | .blockR _ _ tail => tailExprs tail
  | .blockNT _ _ => []
  | e => tailExprs e

/-- `highlight_exit_points::hl` (source lines 265–316): the anchor ranges,
then — after `let body = body?;` — the walk-pass and tail-pass
highlights.  When `body` is `None`, the `?` operator returns `None` from
`hl`, discarding the anchors already accumulated. -/
def exit_hl (defRanges : List (Option TextRange)) (body : Option RExpr) :
    Option (List HighlightedRange) :=
  let highlights := (defRanges.filterMap id).map (fun r => HighlightedRange.mk r none)
  match body with
  | none => none
  | some body =>
      some (highlights ++ exitWalkHl body ++
        (bodyTailExprs body).map (fun t => HighlightedRange.mk (exitTailRange t) none))

/-! ## Yield-point analyzer -/

/-- One `await` occurrence: an occurrence id and its `await` token range. -/
structure YItem where
  id : Nat
  tok : Option TextRange
deriving DecidableEq, Repr

mutual
/-- An expression inside an asynchronous scope's body, as the yield-point
walk sees it: `await` expressions, nested `async` blocks, closures
(both of which start a different context), and everything else. -/
inductive YExpr where
  | awaitY (id : Nat) (tok : Option TextRange) (inner : YForest)
  | asyncBlockY (tok : Option TextRange) (inner : YForest)
  | closureY (inner : YForest)
  | otherY (inner : YForest)
/-- A list of sibling `YExpr`s. -/
inductive YForest where
  | nil
  | cons (e : YExpr) (es : YForest)
end

mutual
/-- Modelled from the spec: the `walk_expr` traversal used by
`highlight_yield_points::hl` — collect every `await`, but do not descend
into a nested asynchronous scope (async block or closure); its suspension
points belong to it. -/
def collectAwaits : YExpr → List YItem
  | .awaitY id tok inner => ⟨id, tok⟩ :: collectAwaitsForest inner
  | .asyncBlockY _ _ => []
  | .closureY _ => []
  | .otherY inner => collectAwaitsForest inner
/-- Forest version of `collectAwaits`. -/
def collectAwaitsForest : YForest → List YItem
  | .nil => []
  | .cons e es => collectAwaits e ++ collectAwaitsForest es
end

/-- Modelled from the spec: the walk entered at the body itself — the body
expression is walked even when it is itself an async block (the scope
being analyzed), while nested different-context subtrees are skipped. -/
def collectAwaitsStart : YExpr → List YItem
  | .awaitY id tok inner => ⟨id, tok⟩ :: collectAwaitsForest inner
  | .asyncBlockY _ inner => collectAwaitsForest inner
  | .closureY inner => collectAwaitsForest inner
  | .otherY inner => collectAwaitsForest inner

mutual
/-- All `await` occurrences of an expression, each paired with the flag
"occurs inside a nested asynchronous scope" (given the flag `nested` of
the surrounding position). -/
def yOccs (nested : Bool) : YExpr → List (YItem × Bool)
  | .awaitY id tok inner => (⟨id, tok⟩, nested) :: yOccsForest nested inner
  | .asyncBlockY _ inner => yOccsForest true inner
  | .closureY inner => yOccsForest true inner
  | .otherY inner => yOccsForest nested inner
/-- Forest version of `yOccs`. -/
def yOccsForest (nested : Bool) : YForest → List (YItem × Bool)
  | .nil => []
  | .cons e es => yOccs nested e ++ yOccsForest nested es
end

/-- `yOccs` entered at the body itself: the body's own constructor does not
count as a nested scope. -/
def yOccsStart : YExpr → List (YItem × Bool)
  | .awaitY id tok inner => (⟨id, tok⟩, false) :: yOccsForest false inner
  | .asyncBlockY _ inner => yOccsForest false inner
  | .closureY inner => yOccsForest false inner
  | .otherY inner => yOccsForest false inner

/-- `highlight_yield_points::hl` (source lines 429–446): the modifier token
becomes the anchor (`async_token?` — `None` aborts), then every collected
`await` token of the body. -/
def yield_hl (asyncTok : Option TextRange) (body : Option YExpr) :
    Option (List HighlightedRange) :=
  match asyncTok with
  | none => none
  | some r =>
      some (HighlightedRange.mk r none ::
        (match body with
         | none => []
         | some b =>
             (collectAwaitsStart b).filterMap
               (fun it => it.tok.map (fun t => HighlightedRange.mk t none))))

/-- An ancestor as the loop of `highlight_yield_points` (source lines
447–462) classifies it: a `fn` (with its optional `async` token and
optional body), a block expression (its own body; skipped via `continue`
when it has no `async` token), a closure, or anything else (skipped). -/
inductive YAnc where
  | fnY (asyncTok : Option TextRange) (body : Option YExpr)
  | blockY (asyncTok : Option TextRange) (body : YExpr)
  | closY (asyncTok : Option TextRange) (body : Option YExpr)
  | otherYA

/-- Whether this ancestor carries an `async` modifier token. -/
def YAnc.hasAsyncTok : YAnc → Bool
  | .fnY tok _ => tok.isSome
  | .blockY tok _ => tok.isSome
  | .closY tok _ => tok.isSome
  | .otherYA => false

/-- `highlight_yield_points` (source lines 428–463): walk the ancestor
chain; a `fn` or closure ancestor dispatches to `hl` (which yields `None`
when the `async` token is absent), a block without `async` token and any
other node continue the search, an exhausted chain yields `None`. -/
def highlight_yield_points : List YAnc → Option (List HighlightedRange)
  | [] => none
  | .fnY tok body :: _ => yield_hl tok body
  | .blockY tok body :: rest =>
      match tok with
      | none => highlight_yield_points rest
      | some t => yield_hl (some t) (some body)
  | .closY tok body :: _ => yield_hl tok body
  | .otherYA :: rest => highlight_yield_points rest

/-! ## Helper lemmas -/

theorem pick_best_token_mem (tokens : List Token) (t : Token)
    (h : pick_best_token tokens = some t) : t ∈ tokens := by
  unfold pick_best_token at h
  suffices H : ∀ (acc : Option Token),
      tokens.foldl
        (fun best u =>
          match best with
          | none => some u
          | some b => if tokenPriority b.kind < tokenPriority u.kind then some u else some b)
        acc = some t → (acc = some t ∨ t ∈ tokens) by
    rcases H none h with h' | h'
    · exact absurd h' (by simp)
    · exact h'
  clear h
  intro acc
  induction tokens generalizing acc with
  | nil => intro h'; left; simpa using h'
  | cons x xs ih =>
    intro h'
    rw [List.foldl_cons] at h'
    rcases ih _ h' with h'' | h''
    · cases acc with
      | none =>
        simp at h''
        right; simp [h'']
      | some b =>
        by_cases hc : tokenPriority b.kind < tokenPriority x.kind
        · simp [hc] at h''
          right; simp [h'']
        · simp [hc] at h''
          left; simp [h'']
    · right; simp [h'']

theorem pick_best_token_maximal (tokens : List Token) (t : Token)
    (h : pick_best_token tokens = some t) :
    ∀ u ∈ tokens, tokenPriority u.kind ≤ tokenPriority t.kind := by
  unfold pick_best_token at h
  suffices H : ∀ (acc : Option Token) (r : Token),
      tokens.foldl
        (fun best u =>
          match best with
          | none => some u
          | some b => if tokenPriority b.kind < tokenPriority u.kind then some u else some b)
        acc = some r →
      (∀ u ∈ tokens, tokenPriority u.kind ≤ tokenPriority r.kind) ∧
      (∀ b, acc = some b → tokenPriority b.kind ≤ tokenPriority r.kind) by
    exact (H none t h).1
  clear h
  intro acc r
  induction tokens generalizing acc with
  | nil =>
    intro h'
    simp at h'
    constructor
    · intro u hu; simp at hu
    · intro b hb; rw [hb] at h'; simp at h'; rw [h']
  | cons x xs ih =>
    intro h'
    rw [List.foldl_cons] at h'
    rcases ih _ h' with ⟨hall, hacc⟩
    constructor
    · intro u hu
      rcases List.mem_cons.mp hu with rfl | hu'
      · cases acc with
        | none => exact hacc u (by simp)
        | some b =>
          by_cases hc : tokenPriority b.kind < tokenPriority u.kind
          · exact hacc u (by simp [hc])
          · have hb := hacc b (by simp [hc])
            omega
      · exact hall u hu'
    · intro b hb
      subst hb
      by_cases hc : tokenPriority b.kind < tokenPriority x.kind
      · have := hacc x (by simp [hc]); omega
      · exact hacc b (by simp [hc])

theorem pick_best_token_isSome (tokens : List Token) (hne : tokens ≠ []) :
    (pick_best_token tokens).isSome = true := by
  unfold pick_best_token
  cases tokens with
  | nil => exact absurd rfl hne
  | cons x xs =>
    rw [List.foldl_cons]
    suffices H : ∀ (b : Token) (l : List Token),
        (l.foldl
          (fun best u =>
            match best with
            | none => some u
            | some b => if tokenPriority b.kind < tokenPriority u.kind then some u else some b)
          (some b)).isSome = true by
      exact H x xs
    intro b l
    induction l generalizing b with
    | nil => rfl
    | cons y ys ih =>
      rw [List.foldl_cons]
      by_cases hc : tokenPriority b.kind < tokenPriority y.kind
      · simpa [hc] using ih y
      · simpa [hc] using ih b

theorem bestTokenAt_spec (tokens : List Token) (offset : Nat) (t : Token)
    (h : bestTokenAt tokens offset = some t) :
    t ∈ tokens ∧ t.containsOffset offset = true ∧
      ∀ u ∈ tokens, u.containsOffset offset = true →
        tokenPriority u.kind ≤ tokenPriority t.kind := by
  unfold bestTokenAt at h
  have hmem := pick_best_token_mem _ _ h
  have hmax := pick_best_token_maximal _ _ h
  have hmem' := List.mem_filter.mp hmem
  refine ⟨hmem'.1, hmem'.2, ?_⟩
  intro u hu hcu
  exact hmax u (List.mem_filter.mpr ⟨hu, hcu⟩)

/-! ## Claim C3: dispatcher token priority -/

/-- C3: for every offset, the dispatcher selects among the tokens whose
range contains the offset the token with the highest priority, under
exactly this table: `?` and `->` = 4, keywords = 3, identifier and
integer-literal = 2, `|` = 1, everything else = 0. -/
theorem C3_dispatcher_priority_table :
    (tokenPriority .question = 4 ∧ tokenPriority .thinArrow = 4) ∧
    (∀ k : SynKind, k.is_keyword = true → tokenPriority k = 3) ∧
    (tokenPriority .identTok = 2 ∧ tokenPriority .intNumber = 2) ∧
    tokenPriority .pipe = 1 ∧
    (∀ k : SynKind, k ≠ .question → k ≠ .thinArrow → k.is_keyword = false →
      k ≠ .identTok → k ≠ .intNumber → k ≠ .pipe → tokenPriority k = 0) ∧
    (∀ (tokens : List Token) (offset : Nat) (t : Token),
      bestTokenAt tokens offset = some t →
        t ∈ tokens ∧ t.containsOffset offset = true ∧
        ∀ u ∈ tokens, u.containsOffset offset = true →
          tokenPriority u.kind ≤ tokenPriority t.kind) ∧
    (∀ (tokens : List Token) (offset : Nat) (u : Token), u ∈ tokens →
      u.containsOffset offset = true → (bestTokenAt tokens offset).isSome = true) := by
  refine ⟨⟨rfl, rfl⟩, ?_, ⟨rfl, rfl⟩, rfl, ?_, ?_, ?_⟩
  · intro k hk
    cases k <;> simp_all [SynKind.is_keyword, tokenPriority]
  · intro k h1 h2 h3 h4 h5 h6
    cases k <;> simp_all [SynKind.is_keyword, tokenPriority]
  · intro tokens offset t h
    exact bestTokenAt_spec tokens offset t h
  · intro tokens offset u hu hcu
    apply pick_best_token_isSome
    intro hnil
    have : u ∈ tokens.filter (fun t => t.containsOffset offset) :=
      List.mem_filter.mpr ⟨hu, hcu⟩
    rw [hnil] at this
    simp at this

/-- Witness for C3 at a concrete boundary offset: `await` `[0,5]` and `?`
`[5,6]` both contain offset 5; the `?` token (priority 4) is selected over
the keyword (priority 3). -/
theorem C3_dispatcher_priority_table_witness :
    (Token.mk .question ⟨5, 6⟩ ∈
        [Token.mk .kwAwait ⟨0, 5⟩, Token.mk .question ⟨5, 6⟩]) ∧
    (Token.mk .question ⟨5, 6⟩).containsOffset 5 = true ∧
    tokenPriority (Token.mk .kwAwait ⟨0, 5⟩).kind ≤
      tokenPriority (Token.mk .question ⟨5, 6⟩).kind := by
  have h := C3_dispatcher_priority_table.2.2.2.2.2.1
    [Token.mk .kwAwait ⟨0, 5⟩, Token.mk .question ⟨5, 6⟩] 5
    (Token.mk .question ⟨5, 6⟩) (by decide)
  exact ⟨h.1, h.2.1, h.2.2 (Token.mk .kwAwait ⟨0, 5⟩) (by decide) (by decide)⟩

/-! ## Break/continue enumeration lemmas -/

mutual
theorem forEachBC_eq (target : Option String) (top : Bool) :
    ∀ e : BCExpr, forEachBC target top e =
      ((bcOccs (!top) e).filter (fun p => bcKeep target (!p.2) p.1.label)).map Prod.fst
  | .breakE id l tok lr => by
    cases h : bcKeep target top l <;>
      simp [forEachBC, bcOccs, List.filter, Bool.not_not, h]
  | .continueE id l tok lr => by
    cases h : bcKeep target top l <;>
      simp [forEachBC, bcOccs, List.filter, Bool.not_not, h]
  | .nestedLoop lbl body => by
    simpa [forEachBC, bcOccs] using forEachBCForest_eq target false body
  | .nestedBlock lbl body => by
    simpa [forEachBC, bcOccs] using forEachBCForest_eq target false body
  | .otherB body => by
    simpa [forEachBC, bcOccs] using forEachBCForest_eq target top body
theorem forEachBCForest_eq (target : Option String) (top : Bool) :
    ∀ f : BCForest, forEachBCForest target top f =
      ((bcOccsForest (!top) f).filter (fun p => bcKeep target (!p.2) p.1.label)).map Prod.fst
  | .nil => by simp [forEachBCForest, bcOccsForest]
  | .cons e es => by
    simp [forEachBCForest, bcOccsForest, forEachBC_eq target top e,
      forEachBCForest_eq target top es]
end

theorem labelEq_none_right (target : Option String) : labelEq target none = false := by
  cases target <;> rfl

/-! ## Claim C1: label-piercing break/continue enumeration -/

/-- C1: the break/continue enumeration over a body, for a given target
label, excludes every unlabeled `break`/`continue` occurring inside a
nested loop or labeled block, and includes every labeled occurrence whose
label text equals the target label, through arbitrary nesting. -/
theorem C1_label_piercing_enumeration :
    ∀ (target : Option String) (body : BCForest),
      (∀ o : BCItem, (o, true) ∈ bcOccsForest false body → o.label = none →
        ((bcOccsForest false body).map (fun p => p.1.id)).Nodup →
        o.id ∉ (forEachBCForest target true body).map BCItem.id) ∧
      (∀ (o : BCItem) (n : Bool) (s : String),
        (o, n) ∈ bcOccsForest false body → o.label = some s → target = some s →
        o ∈ forEachBCForest target true body) := by
  intro target body
  have he := forEachBCForest_eq target true body
  simp only [Bool.not_true] at he
  constructor
  · intro o hmem hlbl hnodup hin
    rw [he] at hin
    rw [List.map_map] at hin
    rcases List.mem_map.mp hin with ⟨p, hp, hpid⟩
    have hpo := List.mem_of_mem_filter hp
    have hkeep := List.of_mem_filter hp
    have : p = (o, true) := by
      apply List.inj_on_of_nodup_map hnodup hpo hmem
      simpa using hpid
    subst this
    simp only [Bool.not_true, hlbl] at hkeep
    rw [bcKeep] at hkeep
    simp [labelEq_none_right] at hkeep
  · intro o n s hmem hlbl htgt
    rw [he]
    have hf : (o, n) ∈
        (bcOccsForest false body).filter (fun p => bcKeep target (!p.2) p.1.label) := by
      apply List.mem_filter.mpr
      refine ⟨hmem, ?_⟩
      simp only [bcKeep, hlbl, htgt, labelEq]
      simp
    exact List.mem_map.mpr ⟨(o, n), hf, rfl⟩

/-- Witness for C1: in the body
`loop { break; break 'a; }` (a nested unlabeled loop holding an unlabeled
`break` with id 1 and a `break 'a` with id 2), enumerating for target
label `'a` excludes id 1 and includes the labeled item 2. -/
theorem C1_label_piercing_enumeration_witness :
    (1 ∉ (forEachBCForest (some "a") true
        (BCForest.cons
          (BCExpr.nestedLoop none
            (BCForest.cons (BCExpr.breakE 1 none none none)
              (BCForest.cons (BCExpr.breakE 2 (some "a") none none) BCForest.nil)))
          BCForest.nil)).map BCItem.id) ∧
    (BCItem.mk 2 true (some "a") none none ∈
      forEachBCForest (some "a") true
        (BCForest.cons
          (BCExpr.nestedLoop none
            (BCForest.cons (BCExpr.breakE 1 none none none)
              (BCForest.cons (BCExpr.breakE 2 (some "a") none none) BCForest.nil)))
          BCForest.nil)) := by
  have h := C1_label_piercing_enumeration (some "a")
    (BCForest.cons
      (BCExpr.nestedLoop none
        (BCForest.cons (BCExpr.breakE 1 none none none)
          (BCForest.cons (BCExpr.breakE 2 (some "a") none none) BCForest.nil)))
      BCForest.nil)
  exact ⟨h.1 (BCItem.mk 1 true none none none) (by decide) (by decide) (by decide),
    h.2 (BCItem.mk 2 true (some "a") none none) true "a" (by decide) (by decide) rfl⟩

/-! ## Claim C6: label matching and break-target ancestor search -/

/-- C6: two labels match iff their literal text is equal; an unlabeled
cursor matches any construct, so the target is simply the first
loop/labeled-block ancestor; a plain block qualifies only when labeled. -/
theorem C6_label_matching :
    (∀ (s : String) (d : Option String), label_matches (some s) d = true ↔ d = some s) ∧
    (∀ d : Option String, label_matches none d = true) ∧
    (∀ chain : List AncExpr, findBreakTarget none chain =
      chain.find? (fun a => match a with
        | .loopA _ => true
        | .forA _ => true
        | .whileA _ => true
        | .blockA l => l.isSome
        | .otherA => false)) ∧
    (∀ (lbl : Option String) (chain : List AncExpr),
      findBreakTarget lbl chain ≠ some (AncExpr.blockA none)) := by
  refine ⟨?_, ?_, ?_, ?_⟩
  · intro s d
    cases d <;> simp [label_matches]
  · intro d; rfl
  · intro chain
    induction chain with
    | nil => rfl
    | cons a rest ih =>
      have hq : breakTargetQualifies none a =
          (match a with
            | .loopA _ => true
            | .forA _ => true
            | .whileA _ => true
            | .blockA l => l.isSome
            | .otherA => false) := by
        cases a <;> simp [breakTargetQualifies, label_matches]
      rw [findBreakTarget, List.find?, hq]
      cases h : (match a with
        | AncExpr.loopA _ => true
        | AncExpr.forA _ => true
        | AncExpr.whileA _ => true
        | AncExpr.blockA l => l.isSome
        | AncExpr.otherA => false) <;> simp [h, ih]
  · intro lbl chain
    induction chain with
    | nil => simp [findBreakTarget]
    | cons a rest ih =>
      rw [findBreakTarget]
      by_cases hq : breakTargetQualifies lbl a = true
      · simp only [hq, if_true]
        intro hcontra
        have : a = AncExpr.blockA none := by injection hcontra
        subst this
        simp [breakTargetQualifies] at hq
      · simp only [Bool.not_eq_true] at hq
        simpa [hq] using ih

/-- Witness for C6: `'a` matches `'a`; an unlabeled cursor inside
`loop { { break } }` targets the loop (skipping the unlabeled block);
no unlabeled plain block is ever a target. -/
theorem C6_label_matching_witness :
    label_matches (some "a") (some "a") = true ∧
    findBreakTarget none [AncExpr.otherA, AncExpr.blockA none, AncExpr.loopA (some "x")] =
      [AncExpr.otherA, AncExpr.blockA none, AncExpr.loopA (some "x")].find?
        (fun a => match a with
          | .loopA _ => true
          | .forA _ => true
          | .whileA _ => true
          | .blockA l => l.isSome
          | .otherA => false) ∧
    findBreakTarget (some "a") [AncExpr.blockA none] ≠ some (AncExpr.blockA none) := by
  refine ⟨(C6_label_matching.1 "a" (some "a")).mpr rfl,
    C6_label_matching.2.2.1 [AncExpr.otherA, AncExpr.blockA none, AncExpr.loopA (some "x")],
    C6_label_matching.2.2.2 (some "a") [AncExpr.blockA none]⟩

/-! ## Claim C7: cursor-kind filter for collected break/continue -/

/-- C7: a cursor on `break` collects only `break` expressions, a cursor on
`continue` only `continue` expressions, and a cursor on a `for`/`while`/
`loop` keyword collects both kinds. -/
theorem C7_cursor_kind_filter :
    ∀ it : BCItem,
      (it.isBreak = true →
        bcHighlightRange .kwBreak it = cover_range it.tok it.lblRange ∧
        bcHighlightRange .kwContinue it = none) ∧
      (it.isBreak = false →
        bcHighlightRange .kwContinue it = cover_range it.tok it.lblRange ∧
        bcHighlightRange .kwBreak it = none) ∧
      (∀ k : SynKind, (k = .kwFor ∨ k = .kwWhile ∨ k = .kwLoop) →
        bcHighlightRange k it = cover_range it.tok it.lblRange) := by
  intro it
  obtain ⟨id, isB, l, tok, lr⟩ := it
  refine ⟨?_, ?_, ?_⟩
  · intro h; subst h
    exact ⟨rfl, rfl⟩
  · intro h; subst h
    exact ⟨rfl, rfl⟩
  · intro k hk
    rcases hk with rfl | rfl | rfl <;> cases isB <;> rfl

/-- Witness for C7 on a concrete `break` item and a concrete `continue`
item with keyword-token range `[4,9]`. -/
theorem C7_cursor_kind_filter_witness :
    bcHighlightRange .kwBreak (BCItem.mk 0 true none (some ⟨4, 9⟩) none) =
      cover_range (some ⟨4, 9⟩) none ∧
    bcHighlightRange .kwContinue (BCItem.mk 0 true none (some ⟨4, 9⟩) none) = none ∧
    bcHighlightRange .kwBreak (BCItem.mk 1 false none (some ⟨4, 9⟩) none) = none ∧
    bcHighlightRange .kwLoop (BCItem.mk 1 false none (some ⟨4, 9⟩) none) =
      cover_range (some ⟨4, 9⟩) none := by
  have hb := (C7_cursor_kind_filter (BCItem.mk 0 true none (some ⟨4, 9⟩) none)).1 rfl
  have hc := (C7_cursor_kind_filter (BCItem.mk 1 false none (some ⟨4, 9⟩) none)).2.1 rfl
  have hl := (C7_cursor_kind_filter (BCItem.mk 1 false none (some ⟨4, 9⟩) none)).2.2
    SynKind.kwLoop (by simp)
  exact ⟨hb.1, hb.2, hc.2, hl⟩

/-! ## Claim C2: exit scope with an anchor but no body (corrected) -/

/-- C2 counterexample: with an anchor range `[0,2]` present but no body,
`highlight_exit_points::hl` returns `None`, not the claimed singleton
anchor list. -/
theorem C2_no_body_counterexample :
    exit_hl [some ⟨0, 2⟩, none] none ≠ some [HighlightedRange.mk ⟨0, 2⟩ none] ∧
    exit_hl [some ⟨0, 2⟩, none] none = none := by
  exact ⟨by decide, rfl⟩

/-- C2 (amended): when the exit scope has no body expression, the analyzer
returns `None` — the anchor highlights accumulated before the missing
body are discarded by `let body = body?;`, not returned. -/
theorem C2_no_body_returns_none :
    ∀ defRanges : List (Option TextRange), exit_hl defRanges none = none :=
  fun _ => rfl

/-! ## Claim C4: tail-position break highlighted at its keyword -/

/-- C4: a `break` expression reached in tail position contributes a
highlight at exactly its `break` keyword token's range, while every other
tail-position expression contributes its whole expression range. -/
theorem C4_break_tail_keyword_range :
    ∀ (body t : RExpr) (dr : List (Option TextRange)), t ∈ bodyTailExprs body →
      (HighlightedRange.mk (exitTailRange t) none ∈ (exit_hl dr (some body)).getD []) ∧
      (∀ (tokR r : TextRange) (inner : RForest),
        t = RExpr.breakR (some tokR) r inner → exitTailRange t = tokR) ∧
      ((∀ (tok : Option TextRange) (r : TextRange) (inner : RForest),
        t ≠ RExpr.breakR tok r inner) → exitTailRange t = t.range) := by
  intro body t dr hmem
  refine ⟨?_, ?_, ?_⟩
  · simp only [exit_hl, Option.getD_some]
    rw [List.append_assoc]
    apply List.mem_append_right
    apply List.mem_append_right
    exact List.mem_map_of_mem _ hmem
  · intro tokR r inner ht
    subst ht
    rfl
  · intro hnb
    cases t with
    | breakR tok r inner => exact absurd rfl (hnb tok r inner)
    | retE tok r inner => rfl
    | tryE tok r inner => rfl
    | callE n r inner => rfl
    | ifR r a b => rfl
    | matchR r a b => rfl
    | blockR r s tl => rfl
    | blockNT r s => rfl
    | otherR r inner => rfl

/-- Witness for C4: a body block whose trailing expression is
`break` (keyword token `[2,7]`, whole expression `[2,9]`): the emitted
tail highlight is the keyword's range `[2,7]`. -/
theorem C4_break_tail_keyword_range_witness :
    HighlightedRange.mk
        (exitTailRange (RExpr.breakR (some ⟨2, 7⟩) ⟨2, 9⟩ RForest.nil)) none ∈
      (exit_hl []
        (some (RExpr.blockR ⟨0, 10⟩ RForest.nil
          (RExpr.breakR (some ⟨2, 7⟩) ⟨2, 9⟩ RForest.nil)))).getD [] ∧
    exitTailRange (RExpr.breakR (some ⟨2, 7⟩) ⟨2, 9⟩ RForest.nil) = ⟨2, 7⟩ := by
  have h := C4_break_tail_keyword_range
    (RExpr.blockR ⟨0, 10⟩ RForest.nil (RExpr.breakR (some ⟨2, 7⟩) ⟨2, 9⟩ RForest.nil))
    (RExpr.breakR (some ⟨2, 7⟩) ⟨2, 9⟩ RForest.nil) []
    (by simp [bodyTailExprs, tailExprs])
  exact ⟨h.1, h.2.1 ⟨2, 7⟩ ⟨2, 9⟩ RForest.nil rfl⟩

/-! ## Yield-point walk lemmas -/

mutual
theorem yOccs_true_flag : ∀ (e : YExpr) (p : YItem × Bool), p ∈ yOccs true e → p.2 = true
  | .awaitY id tok inner => by
    intro p hp
    rw [yOccs] at hp
    rcases List.mem_cons.mp hp with rfl | hp'
    · rfl
    · exact yOccsForest_true_flag inner p hp'
  | .asyncBlockY tok inner => by
    intro p hp
    exact yOccsForest_true_flag inner p hp
  | .closureY inner => by
    intro p hp
    exact yOccsForest_true_flag inner p hp
  | .otherY inner => by
    intro p hp
    exact yOccsForest_true_flag inner p hp
theorem yOccsForest_true_flag :
    ∀ (f : YForest) (p : YItem × Bool), p ∈ yOccsForest true f → p.2 = true
  | .nil => by intro p hp; simp [yOccsForest] at hp
  | .cons e es => by
    intro p hp
    rw [yOccsForest] at hp
    rcases List.mem_append.mp hp with hp' | hp'
    · exact yOccs_true_flag e p hp'
    · exact yOccsForest_true_flag es p hp'
end

mutual
theorem collectAwaits_eq : ∀ e : YExpr,
    collectAwaits e = ((yOccs false e).filter (fun p => !p.2)).map Prod.fst
  | .awaitY id tok inner => by
    simp [collectAwaits, yOccs, collectAwaitsForest_eq inner]
  | .asyncBlockY tok inner => by
    rw [collectAwaits, yOccs]
    have h : (yOccsForest true inner).filter (fun p => !p.2) = [] := by
      apply List.filter_eq_nil_iff.mpr
      intro p hp
      simp [yOccsForest_true_flag inner p hp]
    rw [h]
    rfl
  | .closureY inner => by
    rw [collectAwaits, yOccs]
    have h : (yOccsForest true inner).filter (fun p => !p.2) = [] := by
      apply List.filter_eq_nil_iff.mpr
      intro p hp
      simp [yOccsForest_true_flag inner p hp]
    rw [h]
    rfl
  | .otherY inner => by
    simpa [collectAwaits, yOccs] using collectAwaitsForest_eq inner
theorem collectAwaitsForest_eq : ∀ f : YForest,
    collectAwaitsForest f = ((yOccsForest false f).filter (fun p => !p.2)).map Prod.fst
  | .nil => by simp [collectAwaitsForest, yOccsForest]
  | .cons e es => by
    simp [collectAwaitsForest, yOccsForest, collectAwaits_eq e, collectAwaitsForest_eq es]
end

theorem collectAwaitsStart_eq (e : YExpr) :
    collectAwaitsStart e = ((yOccsStart e).filter (fun p => !p.2)).map Prod.fst := by
  cases e with
  | awaitY id tok inner =>
    simp [collectAwaitsStart, yOccsStart, collectAwaitsForest_eq inner]
  | asyncBlockY tok inner =>
    simpa [collectAwaitsStart, yOccsStart] using collectAwaitsForest_eq inner
  | closureY inner =>
    simpa [collectAwaitsStart, yOccsStart] using collectAwaitsForest_eq inner
  | otherY inner =>
    simpa [collectAwaitsStart, yOccsStart] using collectAwaitsForest_eq inner

/-! ## Claim C5: yield-point analyzer -/

/-- C5: plain (non-async) blocks and other ancestors are skipped；a chain
with no asynchronous scope yields `None`; the nearest async scope's
modifier token is returned as the anchor together with the body's `await`
tokens; an `await` occurrence is collected iff it is not separated from
the scope by a nested asynchronous scope. -/
theorem C5_yield_points :
    (∀ rest, highlight_yield_points (.otherYA :: rest) = highlight_yield_points rest) ∧
    (∀ (b : YExpr) rest, highlight_yield_points (.blockY none b :: rest) =
      highlight_yield_points rest) ∧
    (∀ chain : List YAnc, (∀ a ∈ chain, a.hasAsyncTok = false) →
      highlight_yield_points chain = none) ∧
    (∀ (r : TextRange) (body : YExpr) (rest : List YAnc),
      highlight_yield_points (.fnY (some r) (some body) :: rest) =
        some (HighlightedRange.mk r none ::
          (collectAwaitsStart body).filterMap
            (fun it => it.tok.map (fun t => HighlightedRange.mk t none)))) ∧
    (∀ (r : TextRange) (body : YExpr) (rest : List YAnc),
      highlight_yield_points (.blockY (some r) body :: rest) =
        some (HighlightedRange.mk r none ::
          (collectAwaitsStart body).filterMap
            (fun it => it.tok.map (fun t => HighlightedRange.mk t none)))) ∧
    (∀ (body : YExpr) (it : YItem),
      (it, false) ∈ yOccsStart body → it ∈ collectAwaitsStart body) ∧
    (∀ (body : YExpr) (it : YItem),
      (it, true) ∈ yOccsStart body →
      ((yOccsStart body).map (fun p => p.1.id)).Nodup →
      it.id ∉ (collectAwaitsStart body).map YItem.id) := by
  refine ⟨fun rest => rfl, fun b rest => rfl, ?_, fun r body rest => rfl,
    fun r body rest => rfl, ?_, ?_⟩
  · intro chain h
    induction chain with
    | nil => rfl
    | cons a rest ih =>
      have ha := h a (List.mem_cons_self a rest)
      have hrest := fun x hx => h x (List.mem_cons_of_mem a hx)
      cases a with
      | fnY tok body =>
        cases tok with
        | none => rfl
        | some t => simp [YAnc.hasAsyncTok] at ha
      | blockY tok body =>
        cases tok with
        | none => simpa [highlight_yield_points] using ih hrest
        | some t => simp [YAnc.hasAsyncTok] at ha
      | closY tok body =>
        cases tok with
        | none => rfl
        | some t => simp [YAnc.hasAsyncTok] at ha
      | otherYA => simpa [highlight_yield_points] using ih hrest
  · intro body it hmem
    rw [collectAwaitsStart_eq]
    have hf : (it, false) ∈ (yOccsStart body).filter (fun p => !p.2) :=
      List.mem_filter.mpr ⟨hmem, by simp⟩
    exact List.mem_map.mpr ⟨(it, false), hf, rfl⟩
  · intro body it hmem hnodup hin
    rw [collectAwaitsStart_eq, List.map_map] at hin
    rcases List.mem_map.mp hin with ⟨p, hp, hpid⟩
    have hpo := List.mem_of_mem_filter hp
    have hkeep := List.of_mem_filter hp
    have : p = (it, true) := by
      apply List.inj_on_of_nodup_map hnodup hpo hmem
      simpa using hpid
    subst this
    simp at hkeep

/-- Witness for C5: an ancestor chain `[plain block, async fn]` around a
body `async { x.await }.await` — the outer `await` (id 1) is collected,
the one inside the nested async block (id 2) is not, and the `async`
token `[0,5]` is the anchor. -/
theorem C5_yield_points_witness :
    highlight_yield_points
        [YAnc.blockY none (YExpr.otherY YForest.nil),
         YAnc.fnY (some ⟨0, 5⟩)
           (some (YExpr.otherY (YForest.cons
             (YExpr.awaitY 1 (some ⟨20, 25⟩)
               (YForest.cons (YExpr.asyncBlockY (some ⟨8, 13⟩)
                 (YForest.cons (YExpr.awaitY 2 (some ⟨14, 19⟩) YForest.nil) YForest.nil))
                 YForest.nil))
             YForest.nil)))] =
      highlight_yield_points
        [YAnc.fnY (some ⟨0, 5⟩)
           (some (YExpr.otherY (YForest.cons
             (YExpr.awaitY 1 (some ⟨20, 25⟩)
               (YForest.cons (YExpr.asyncBlockY (some ⟨8, 13⟩)
                 (YForest.cons (YExpr.awaitY 2 (some ⟨14, 19⟩) YForest.nil) YForest.nil))
                 YForest.nil))
             YForest.nil)))] ∧
    YItem.mk 1 (some ⟨20, 25⟩) ∈
      collectAwaitsStart (YExpr.otherY (YForest.cons
        (YExpr.awaitY 1 (some ⟨20, 25⟩)
          (YForest.cons (YExpr.asyncBlockY (some ⟨8, 13⟩)
            (YForest.cons (YExpr.awaitY 2 (some ⟨14, 19⟩) YForest.nil) YForest.nil))
            YForest.nil))
        YForest.nil)) ∧
    2 ∉ (collectAwaitsStart (YExpr.otherY (YForest.cons
        (YExpr.awaitY 1 (some ⟨20, 25⟩)
          (YForest.cons (YExpr.asyncBlockY (some ⟨8, 13⟩)
            (YForest.cons (YExpr.awaitY 2 (some ⟨14, 19⟩) YForest.nil) YForest.nil))
            YForest.nil))
        YForest.nil))).map YItem.id := by
  refine ⟨C5_yield_points.2.1 (YExpr.otherY YForest.nil) _, ?_, ?_⟩
  · apply C5_yield_points.2.2.2.2.2.1
    simp [yOccsStart, yOccs, yOccsForest]
  · exact C5_yield_points.2.2.2.2.2.2
      (YExpr.otherY (YForest.cons
        (YExpr.awaitY 1 (some ⟨20, 25⟩)
          (YForest.cons (YExpr.asyncBlockY (some ⟨8, 13⟩)
            (YForest.cons (YExpr.awaitY 2 (some ⟨14, 19⟩) YForest.nil) YForest.nil))
            YForest.nil))
        YForest.nil))
      (YItem.mk 2 (some ⟨14, 19⟩))
      (by simp [yOccsStart, yOccs, yOccsForest])
      (by simp [yOccsStart, yOccs, yOccsForest])

/-! ## Claim C8: local declaration sites tagged Write iff mutable -/

/-- C8: every declaration-site highlight the reference analyzer emits for a
local in the current file carries category `Write` iff the local is
mutable (and no category otherwise), and every in-file declaration site
with a focus range is emitted with exactly that category. -/
theorem C8_local_decl_write_tag :
    ∀ (is_mut : Bool) (decls : List NavTarget) (fid : Nat),
      (∀ h ∈ localDeclHighlights is_mut decls fid,
        h.category = if is_mut then some ReferenceCategory.Write else none) ∧
      (∀ d ∈ decls, d.file_id = fid → ∀ r, d.focus_range = some r →
        HighlightedRange.mk r (if is_mut then some ReferenceCategory.Write else none) ∈
          localDeclHighlights is_mut decls fid) := by
  intro is_mut decls fid
  constructor
  · intro h hmem
    unfold localDeclHighlights at hmem
    rcases List.mem_map.mp hmem with ⟨r, _, rfl⟩
    rfl
  · intro d hd hfile r hfocus
    unfold localDeclHighlights
    apply List.mem_map_of_mem
    apply List.mem_filterMap.mpr
    refine ⟨d, ?_, hfocus⟩
    apply List.mem_filter.mpr
    exact ⟨hd, by simp [hfile]⟩

/-- Witness for C8: a mutable local with one in-file declaration site of
focus range `[3,6]` is emitted tagged `Write`. -/
theorem C8_local_decl_write_tag_witness :
    HighlightedRange.mk ⟨3, 6⟩ (some ReferenceCategory.Write) ∈
      localDeclHighlights true [NavTarget.mk 0 (some ⟨3, 6⟩)] 0 ∧
    ∀ h ∈ localDeclHighlights true [NavTarget.mk 0 (some ⟨3, 6⟩)] 0,
      h.category = some ReferenceCategory.Write := by
  have hpair := C8_local_decl_write_tag true [NavTarget.mk 0 (some ⟨3, 6⟩)] 0
  constructor
  · simpa using hpair.2 (NavTarget.mk 0 (some ⟨3, 6⟩)) (by simp) rfl ⟨3, 6⟩ rfl
  · intro h hmem
    simpa using hpair.1 h hmem

/-! ## Claim C9: empty-result normalization only on the references path -/

/-- C9: the references path normalizes a literally empty result set to
`None`; the dispatcher returns every other analyzer's collection verbatim
(which may be a non-empty single-element list), and routes a request to
the references path as the fall-through arm. -/
theorem C9_references_empty_normalization :
    (∀ res : List HighlightedRange, res = [] → highlight_references_result res = none) ∧
    (∀ res : List HighlightedRange, res ≠ [] → highlight_references_result res = some res) ∧
    (∀ (config : HighlightRelatedConfig) (tok : TokenCtx) (r : AnalyzerResults),
      tok.kind = .identTok → config.references = true →
        highlight_related config tok r = r.references) ∧
    (∀ (config : HighlightRelatedConfig) (tok : TokenCtx) (r : AnalyzerResults),
      tok.kind = .kwFn → config.exit_points = true →
        highlight_related config tok r = r.exitPoints) ∧
    (∀ (config : HighlightRelatedConfig) (tok : TokenCtx) (r : AnalyzerResults),
      tok.kind = .kwAsync → config.yield_points = true →
        highlight_related config tok r = r.yieldPoints) ∧
    (∀ (config : HighlightRelatedConfig) (tok : TokenCtx) (r : AnalyzerResults),
      tok.kind = .kwBreak → config.break_points = true →
        highlight_related config tok r = r.breakPoints) ∧
    (∀ (config : HighlightRelatedConfig) (tok : TokenCtx) (r : AnalyzerResults),
      tok.kind = .pipe → config.closure_captures = true →
        highlight_related config tok r = r.closureCaptures) := by
  refine ⟨?_, ?_, ?_, ?_, ?_, ?_, ?_⟩
  · intro res h; subst h; rfl
  · intro res h
    unfold highlight_references_result
    simp [h]
  · intro config tok r hk hc
    unfold highlight_related
    rw [hk]
    simp [hc]
  · intro config tok r hk hc
    unfold highlight_related
    rw [hk]
    simp [hc]
  · intro config tok r hk hc
    unfold highlight_related
    rw [hk]
    simp [hc]
  · intro config tok r hk hc
    unfold highlight_related
    rw [hk]
    simp [hc]
  · intro config tok r hk hc
    unfold highlight_related
    rw [hk]
    simp [hc]

/-- Witness for C9: with all features enabled, an identifier token whose
references result set is empty yields `None` overall, while an `async`
token's yield-point singleton is returned verbatim. -/
theorem C9_references_empty_normalization_witness :
    highlight_related ⟨true, true, true, true, true⟩ ⟨.identTok, false, false⟩
        ⟨none, none, none, none, highlight_references_result []⟩ =
      highlight_references_result [] ∧
    highlight_references_result ([] : List HighlightedRange) = none ∧
    highlight_related ⟨true, true, true, true, true⟩ ⟨.kwAsync, false, false⟩
        ⟨none, some [HighlightedRange.mk ⟨0, 5⟩ none], none, none, none⟩ =
      some [HighlightedRange.mk ⟨0, 5⟩ none] := by
  refine ⟨C9_references_empty_normalization.2.2.1 ⟨true, true, true, true, true⟩
      ⟨.identTok, false, false⟩
      ⟨none, none, none, none, highlight_references_result []⟩ rfl rfl,
    C9_references_empty_normalization.1 [] rfl,
    C9_references_empty_normalization.2.2.2.2.1 ⟨true, true, true, true, true⟩
      ⟨.kwAsync, false, false⟩
      ⟨none, some [HighlightedRange.mk ⟨0, 5⟩ none], none, none, none⟩ rfl rfl⟩

/-! ## Category-freeness lemmas -/

mutual
theorem exitWalkHl_category : ∀ (e : RExpr) (h : HighlightedRange),
    h ∈ exitWalkHl e → h.category = none
  | .retE tok r inner => by
    intro h hm
    rw [exitWalkHl] at hm
    rcases List.mem_append.mp hm with hm' | hm'
    · cases tok <;> simp_all
    · exact exitWalkHlForest_category inner h hm'
  | .tryE tok r inner => by
    intro h hm
    rw [exitWalkHl] at hm
    rcases List.mem_append.mp hm with hm' | hm'
    · cases tok <;> simp_all
    · exact exitWalkHlForest_category inner h hm'
  | .callE isNever r inner => by
    intro h hm
    rw [exitWalkHl] at hm
    rcases List.mem_append.mp hm with hm' | hm'
    · cases isNever <;> simp_all
    · exact exitWalkHlForest_category inner h hm'
  | .breakR tok r inner => by
    intro h hm
    rw [exitWalkHl] at hm
    exact exitWalkHlForest_category inner h hm
  | .ifR r branches rest => by
    intro h hm
    rw [exitWalkHl] at hm
    rcases List.mem_append.mp hm with hm' | hm'
    · exact exitWalkHlForest_category branches h hm'
    · exact exitWalkHlForest_category rest h hm'
  | .matchR r arms rest => by
    intro h hm
    rw [exitWalkHl] at hm
    rcases List.mem_append.mp hm with hm' | hm'
    · exact exitWalkHlForest_category arms h hm'
    · exact exitWalkHlForest_category rest h hm'
  | .blockR r stmts tail => by
    intro h hm
    rw [exitWalkHl] at hm
    rcases List.mem_append.mp hm with hm' | hm'
    · exact exitWalkHlForest_category stmts h hm'
    · exact exitWalkHl_category tail h hm'
  | .blockNT r stmts => by
    intro h hm
    rw [exitWalkHl] at hm
    exact exitWalkHlForest_category stmts h hm
  | .otherR r inner => by
    intro h hm
    rw [exitWalkHl] at hm
    exact exitWalkHlForest_category inner h hm
theorem exitWalkHlForest_category : ∀ (f : RForest) (h : HighlightedRange),
    h ∈ exitWalkHlForest f → h.category = none
  | .nil => by intro h hm; rw [exitWalkHlForest] at hm; simp at hm
  | .cons e es => by
    intro h hm
    rw [exitWalkHlForest] at hm
    rcases List.mem_append.mp hm with hm' | hm'
    · exact exitWalkHl_category e h hm'
    · exact exitWalkHlForest_category es h hm'
end

theorem exit_hl_category (dr : List (Option TextRange)) (body : Option RExpr)
    (h : HighlightedRange) (hm : h ∈ (exit_hl dr body).getD []) : h.category = none := by
  cases body with
  | none => simp [exit_hl] at hm
  | some b =>
    simp only [exit_hl, Option.getD_some] at hm
    rcases List.mem_append.mp hm with hm' | hm'
    · rcases List.mem_append.mp hm' with hm'' | hm''
      · rcases List.mem_map.mp hm'' with ⟨r, _, rfl⟩; rfl
      · exact exitWalkHl_category b h hm''
    · rcases List.mem_map.mp hm' with ⟨t, _, rfl⟩; rfl

theorem break_hl_category (ck : SynKind) (tok lr : Option TextRange)
    (target : Option String) (body : Option BCForest) (h : HighlightedRange)
    (hm : h ∈ (break_hl ck tok lr target body).getD []) : h.category = none := by
  simp only [break_hl, Option.getD_some] at hm
  rcases List.mem_append.mp hm with hm' | hm'
  · rcases List.mem_map.mp hm' with ⟨r, _, rfl⟩; rfl
  · rcases List.mem_filterMap.mp hm' with ⟨it, _, hit⟩
    rcases Option.map_eq_some'.mp hit with ⟨r, _, rfl⟩; rfl

theorem yield_hl_category (tok : Option TextRange) (body : Option YExpr)
    (h : HighlightedRange) (hm : h ∈ (yield_hl tok body).getD []) : h.category = none := by
  cases tok with
  | none => simp [yield_hl] at hm
  | some r =>
    simp only [yield_hl, Option.getD_some] at hm
    rcases List.mem_cons.mp hm with rfl | hm'
    · rfl
    · cases body with
      | none => simp at hm'
      | some b =>
        rcases List.mem_filterMap.mp hm' with ⟨it, _, hit⟩
        rcases Option.map_eq_some'.mp hit with ⟨t, _, rfl⟩; rfl

theorem highlight_yield_points_category (chain : List YAnc) (h : HighlightedRange)
    (hm : h ∈ (highlight_yield_points chain).getD []) : h.category = none := by
  induction chain with
  | nil => simp [highlight_yield_points] at hm
  | cons a rest ih =>
    cases a with
    | fnY tok body =>
      rw [highlight_yield_points] at hm
      exact yield_hl_category tok body h hm
    | blockY tok body =>
      cases tok with
      | none =>
        rw [highlight_yield_points] at hm
        exact ih hm
      | some t =>
        rw [highlight_yield_points] at hm
        exact yield_hl_category (some t) (some body) h hm
    | closY tok body =>
      rw [highlight_yield_points] at hm
      exact yield_hl_category tok body h hm
    | otherYA =>
      rw [highlight_yield_points] at hm
      exact ih hm

/-! ## Claim C10: exit/break/yield highlights carry no category -/

/-- C10: every highlighted range produced by the exit-point, break/continue
and yield-point analyzers has `category = None`; the references path, by
contrast, does attach a usage category (here: a mutable local's
declaration site tagged `Write`). -/
theorem C10_analyzer_categories_none :
    (∀ (dr : List (Option TextRange)) (body : Option RExpr) (h : HighlightedRange),
      h ∈ (exit_hl dr body).getD [] → h.category = none) ∧
    (∀ (ck : SynKind) (tok lr : Option TextRange) (target : Option String)
      (body : Option BCForest) (h : HighlightedRange),
      h ∈ (break_hl ck tok lr target body).getD [] → h.category = none) ∧
    (∀ (chain : List YAnc) (h : HighlightedRange),
      h ∈ (highlight_yield_points chain).getD [] → h.category = none) ∧
    localDeclHighlights true [NavTarget.mk 0 (some ⟨3, 6⟩)] 0 =
      [HighlightedRange.mk ⟨3, 6⟩ (some ReferenceCategory.Write)] := by
  exact ⟨exit_hl_category, break_hl_category, highlight_yield_points_category, rfl⟩

/-- Witness for C10 at concrete inputs: the anchor produced for an `fn`
token `[0,2]` with a trivial body, a `break` anchor, and a yield anchor
are all category-free. -/
theorem C10_analyzer_categories_none_witness :
    (HighlightedRange.mk ⟨0, 2⟩ none).category = none ∧
    (HighlightedRange.mk ⟨4, 9⟩ none).category = none ∧
    (HighlightedRange.mk ⟨10, 15⟩ none).category = none := by
  refine ⟨?_, ?_, ?_⟩
  · exact C10_analyzer_categories_none.1 [some ⟨0, 2⟩]
      (some (RExpr.blockNT ⟨3, 20⟩ RForest.nil)) (HighlightedRange.mk ⟨0, 2⟩ none)
      (by simp [exit_hl, exitWalkHl, exitWalkHlForest, bodyTailExprs])
  · exact C10_analyzer_categories_none.2.1 .kwBreak (some ⟨4, 9⟩) none none none
      (HighlightedRange.mk ⟨4, 9⟩ none)
      (by simp [break_hl, cover_range])
  · exact C10_analyzer_categories_none.2.2.1
      [YAnc.fnY (some ⟨10, 15⟩) none] (HighlightedRange.mk ⟨10, 15⟩ none)
      (by simp [highlight_yield_points, yield_hl])
